import Mathlib

/-!
# Verification of the custom composite index engine

Shallow embedding of `Program/data/custom_index.py`: the formula
parser/validator (`_parse_formula_safe`), the frequency guard
(`_enforce_uniform_frequency`, `_infer_periodicity_label`, `_median_days`,
`_validate_all_series_frequency`), alignment (`_union_index`,
`_asof_align_series`, `_resolve_tolerance`) and the evaluator
(`_evaluate_expr` with `_series_add`/`_series_sub`/`_series_mul`/
`_series_div`/`_series_pow`), tied together by `compute_custom_index`.

Modelling conventions:
* Timestamps are rational numbers of fractional days (`ℚ`); pandas
  timestamps are exact integers of nanoseconds, and every gap computation in
  the source divides total seconds by 86400, which is exact over `ℚ`.
* A pandas `float64` cell is modelled by `FVal`: a finite rational, a signed
  infinity, or `nan` (which in pandas also encodes a missing value).
  Overflow of finite arithmetic to infinity is not modelled (rationals are
  unbounded); in this model infinities arise exactly where IEEE 754 produces
  them from exact operands: division by zero and the `pow` special cases.
* Input table cells are `Option ℚ` (`none` = NaN/missing): the table comes
  from the fetch layer as finite floats with gaps.
* The defensive `sort_index` of `compute_custom_index` (a no-op on tables
  whose index is already ascending, which is the documented invariant) is
  not modelled; properties that need order are stated for tables with a
  strictly ascending index, where the source's sort is the identity.
-/

namespace CustomIndex

/-- A `float64` value as produced by the arithmetic in `custom_index.py`:
a finite rational, a signed infinity (`sign = true` for `+∞`), or NaN.
In pandas a missing value *is* NaN, so `nan` doubles as "missing". -/
inductive FVal where
  | num (q : ℚ)
  | inf (sign : Bool)
  | nan
  deriving DecidableEq, Repr

namespace FVal

/-- `true` exactly on `±∞` (the `np.isinf` test of the final sweep). -/
def isInf : FVal → Bool
  | inf _ => true
  | _ => false

/-- `±∞ → NaN`, everything else unchanged: one cell of
`replace([np.inf, -np.inf], np.nan)`. -/
def stripInf : FVal → FVal
  | inf _ => nan
  | v => v

/-- IEEE addition of two `float64` values (exact: rationals do not
overflow). -/
def fadd : FVal → FVal → FVal
  | nan, _ => nan
  | _, nan => nan
  | inf s, inf t => if s = t then inf s else nan
  | inf s, num _ => inf s
  | num _, inf t => inf t
  | num a, num b => num (a + b)

/-- IEEE negation. -/
def fneg : FVal → FVal
  | nan => nan
  | inf s => inf (!s)
  | num a => num (-a)

/-- IEEE subtraction (`a - b = a + (-b)` exactly). -/
def fsub (a b : FVal) : FVal := fadd a (fneg b)

/-- IEEE multiplication: `NaN` absorbs, `±∞ * 0 = NaN`, signs combine. -/
def fmul : FVal → FVal → FVal
  | nan, _ => nan
  | _, nan => nan
  | inf s, inf t => inf (s = t)
  | inf s, num b => if b = 0 then nan else inf (s = decide (0 < b))
  | num a, inf t => if a = 0 then nan else inf (t = decide (0 < a))
  | num a, num b => num (a * b)

/-- IEEE division: `x/0` is a signed infinity for `x ≠ 0` and NaN for
`0/0`; `∞/∞ = NaN`; finite`/∞ = 0`. -/
def fdivRaw : FVal → FVal → FVal
  | nan, _ => nan
  | _, nan => nan
  | inf s, inf _ => if s then nan else nan
  | inf s, num b => if b < 0 then inf (!s) else inf s
  | num _, inf _ => num 0
  | num a, num b =>
      if b = 0 then
        (if a = 0 then nan else if 0 < a then inf true else inf false)
      else num (a / b)

/-- `_series_div`: plain division followed immediately by
`replace([np.inf, -np.inf], np.nan)` — the mid-expression neutralization. -/
def divRep (a b : FVal) : FVal := stripInf (fdivRaw a b)

/-- Stand-in for the `float64` value of a power with a positive finite base
and a non-integer finite exponent: the true value is an irrational real in
general and lies outside the rational value model. Only the fact that such
a power is a present (finite) value is ever used; no theorem in this file
depends on this payload. -/
def posFracPow (_a _b : ℚ) : ℚ := 0

/-- IEEE `pow` as computed by `numpy` (C99 `pow`) for `Series.pow`:
`pow(x, ±0) = 1` for every `x` (NaN and `±∞` included), `pow(1, y) = 1` for
every `y`, NaN propagates otherwise, `pow(±0, negative) = +∞`,
a negative base with a non-integer exponent is NaN, and the usual signed
rules at infinite bases/exponents. -/
def fpow (x y : FVal) : FVal :=
  match x, y with
  | x, num b =>
    if b = 0 then num 1
    else
      match x with
      | nan => nan
      | num a =>
        if a = 1 then num 1
        else if a = 0 then (if b < 0 then inf true else num 0)
        else if b.den = 1 then num (a ^ b.num)
        else if a < 0 then nan
        else num (posFracPow a b)
      | inf s =>
        if s then (if b < 0 then num 0 else inf true)
        else
          if b < 0 then num 0
          else if b.den = 1 ∧ b.num % 2 ≠ 0 then inf false else inf true
  | x, nan =>
    match x with
    | num a => if a = 1 then num 1 else nan
    | _ => nan
  | x, inf t =>
    match x with
    | nan => nan
    | num a =>
      if a = 1 ∨ a = -1 then num 1
      else if t then (if 1 < |a| then inf true else num 0)
      else (if 1 < |a| then num 0 else inf true)
    | inf _ => if t then inf true else num 0

/-- One cell of `_series_add`, i.e. `a.add(b, fill_value=0.0)` on two
series over the same axis: a NaN on exactly one side is filled with `0`
before the addition, two NaNs stay NaN. -/
def addFill (a b : FVal) : FVal :=
  match a, b with
  | nan, nan => nan
  | nan, y => fadd (num 0) y
  | x, nan => fadd x (num 0)
  | x, y => fadd x y

/-- One cell of `_series_sub`, i.e. `a.sub(b, fill_value=0.0)`. -/
def subFill (a b : FVal) : FVal :=
  match a, b with
  | nan, nan => nan
  | nan, y => fsub (num 0) y
  | x, nan => fsub x (num 0)
  | x, y => fsub x y

end FVal

/-! ## The parsed formula: Python expression AST

`_parse_formula_safe` runs `ast.parse(formula, mode="eval")` (CPython's
parser, external to this model) and then validates the resulting tree with
a `NodeVisitor`. The AST is modelled by `PyExpr`; node kinds that the
validator rejects at the node itself (without ever visiting their
children) are given representative arities. `PyConst` models the value
carried by an `ast.Constant` together with its Python type; note that in
Python `bool` is a subclass of `int`, so `isinstance(True, int)` holds. -/

/-- The value of an `ast.Constant` node, by Python type. -/
inductive PyConst where
  | int (n : ℤ)
  | float (q : ℚ)
  | bool (b : Bool)
  | str (s : String)
  | none
  | complex
  | bytes
  | ellipsis
  deriving DecidableEq, Repr

/-- Binary operator kinds of `ast.BinOp`. -/
inductive PyBinOpKind where
  | add | sub | mult | div | pow
  | mod | floorDiv | matMult | lshift | rshift | bitOr | bitXor | bitAnd
  deriving DecidableEq, Repr

/-- Unary operator kinds of `ast.UnaryOp`. -/
inductive PyUnaryOpKind where
  | uadd | usub | not | invert
  deriving DecidableEq, Repr

/-- A parsed Python expression (the `body` of an `ast.Expression`). -/
inductive PyExpr where
  | binop (op : PyBinOpKind) (left right : PyExpr)
  | unaryop (op : PyUnaryOpKind) (operand : PyExpr)
  | name (id : String)
  | const (c : PyConst)
  | call (func arg : PyExpr)
  | compare (left right : PyExpr)
  | subscript (value index : PyExpr)
  | attr (value : PyExpr) (attrName : String)
  | listLit (x y : PyExpr)
  | boolop (x y : PyExpr)
  | ifexp (test body orelse : PyExpr)
  | lambda (body : PyExpr)
  deriving DecidableEq, Repr

namespace PyExpr

/-- `type(node).__name__` of the AST node. -/
def nodeName : PyExpr → String
  | binop .. => "BinOp"
  | unaryop .. => "UnaryOp"
  | name .. => "Name"
  | const .. => "Constant"
  | call .. => "Call"
  | compare .. => "Compare"
  | subscript .. => "Subscript"
  | attr .. => "Attribute"
  | listLit .. => "List"
  | boolop .. => "BoolOp"
  | ifexp .. => "IfExp"
  | lambda .. => "Lambda"

end PyExpr

/-- `type(op).__name__` of a binary operator node. -/
def binOpName : PyBinOpKind → String
  | .add => "Add" | .sub => "Sub" | .mult => "Mult" | .div => "Div"
  | .pow => "Pow" | .mod => "Mod" | .floorDiv => "FloorDiv"
  | .matMult => "MatMult" | .lshift => "LShift" | .rshift => "RShift"
  | .bitOr => "BitOr" | .bitXor => "BitXor" | .bitAnd => "BitAnd"

/-- `type(op).__name__` of a unary operator node. -/
def unaryOpName : PyUnaryOpKind → String
  | .uadd => "UAdd" | .usub => "USub" | .not => "Not" | .invert => "Invert"

/-- `_ALLOWED_BINOPS = (ast.Add, ast.Sub, ast.Mult, ast.Div, ast.Pow)`. -/
def allowedBin : PyBinOpKind → Bool
  | .add | .sub | .mult | .div | .pow => true
  | _ => false

/-- `_ALLOWED_UNARYOPS = (ast.UAdd, ast.USub)`. -/
def allowedUnary : PyUnaryOpKind → Bool
  | .uadd | .usub => true
  | _ => false

/-- The error taxonomy of the library, one constructor per distinct raise
site (the source raises `ValueError` subclasses distinguished by message;
`MixedFrequencyError` is a real subclass with two raise sites). -/
inductive CIError where
  /-- `"Forbidden expression element: {type(node).__name__}"` -/
  | forbiddenElement (construct : String)
  /-- `"Operator not allowed: {type(node.op).__name__}"` -/
  | operatorNotAllowed (construct : String)
  /-- `"Unary operator not allowed: {type(node.op).__name__}"` -/
  | unaryNotAllowed (construct : String)
  /-- `"Only numeric constants are allowed in the formula."` -/
  | nonNumericConstant
  /-- `"Formula must reference at least one alias; ..."` -/
  | emptyFormula
  /-- `"Formula references aliases not found in data columns: ..."` with the
  sorted list of all missing aliases. -/
  | unknownAliases (missing : List String)
  /-- `MixedFrequencyError` from `_enforce_uniform_frequency`. -/
  | mixedFrequency
  /-- `MixedFrequencyError` from `_validate_all_series_frequency`, naming
  the offending alias. -/
  | expectedMismatch (name : String)
  /-- `"Unsupported binary operator."` etc. from `_evaluate_expr`
  (unreachable after validation). -/
  | evalUnsupported (what : String)
  deriving DecidableEq, Repr

/-- The validating visitor of `_parse_formula_safe`: `visit` whitelists the
node type (`Expression`, `BinOp`, `UnaryOp`, `Name`, `Constant`) before
dispatching; `visit_BinOp`/`visit_UnaryOp` check the operator and then
visit the children, `visit_Name` collects the identifier, `visit_Constant`
accepts exactly `isinstance(value, (int, float))` — which in Python
includes `bool` values. Returns the referenced names in visit order
(the source collects them into a `set`). -/
def pyCheck : PyExpr → Except CIError (List String)
  | .binop op l r =>
      if allowedBin op then do
        let nl ← pyCheck l
        let nr ← pyCheck r
        pure (nl ++ nr)
      else .error (.operatorNotAllowed (binOpName op))
  | .unaryop op e =>
      if allowedUnary op then pyCheck e
      else .error (.unaryNotAllowed (unaryOpName op))
  | .name s => pure [s]
  | .const c =>
      match c with
      | .int _ | .float _ | .bool _ => pure []
      | _ => .error .nonNumericConstant
  | e => .error (.forbiddenElement e.nodeName)

/-- The operator dispatched by `_evaluate_expr` for an allowed `BinOp`
(the NaN policy is baked into each `_series_*` helper). -/
def binFun? : PyBinOpKind → Option (FVal → FVal → FVal)
  | .add => some FVal.addFill
  | .sub => some FVal.subFill
  | .mult => some FVal.fmul
  | .div => some FVal.divRep
  | .pow => some FVal.fpow
  | _ => Option.none

/-- `float(value)` of a validated constant: `int` and `float` unchanged,
`float(True) = 1.0`, `float(False) = 0.0`. Other constant values never
reach evaluation (validation rejects them; the source would raise from
`float(...)` there). -/
def constVal : PyConst → Except CIError ℚ
  | .int n => pure (n : ℚ)
  | .float q => pure q
  | .bool b => pure (if b then 1 else 0)
  | _ => .error (.evalUnsupported "Constant")

/-- `_evaluate_expr`: recursive evaluation over series aligned to one
common target axis of length `len`. Every subexpression evaluates to a
series over that axis (a `List FVal` of length `len`); a numeric literal
broadcasts to a constant series over the same axis (the source takes the
index of the first aligned series, which is the target axis). The
`.error` branches are unreachable after validation but modelled as the
source's raises. -/
def evalPy (env : List (String × List FVal)) (len : Nat) :
    PyExpr → Except CIError (List FVal)
  | .binop op l r => do
      let a ← evalPy env len l
      let b ← evalPy env len r
      match binFun? op with
      | some f => pure (List.zipWith f a b)
      | Option.none => .error (.evalUnsupported "binary operator")
  | .unaryop op e => do
      let v ← evalPy env len e
      match op with
      | .uadd => pure v
      | .usub => pure (v.map FVal.fneg)
      | _ => .error (.evalUnsupported "unary operator")
  | .name s =>
      match env.lookup s with
      | some v => pure v
      | Option.none => .error (.evalUnsupported "alias")
  | .const c => do
      let q ← constVal c
      pure (List.replicate len (FVal.num q))
  | e => .error (.evalUnsupported e.nodeName)

/-! ## The input table and alignment helpers -/

/-- The input `pd.DataFrame`: one shared `DatetimeIndex` (rationals, in
fractional days) and named numeric columns whose cells may be missing.
Every column has one cell per index entry. -/
structure Table where
  index : List ℚ
  cols : List (String × List (Option ℚ))
  deriving Repr

namespace Table

/-- `a < b` for every consecutive pair: the documented invariant of the
input index (strictly ascending, unique). -/
def ascending : List ℚ → Bool
  | [] => true
  | [_] => true
  | a :: b :: r => decide (a < b) && ascending (b :: r)

/-- Well-formedness: strictly ascending unique index, and each column has
exactly one cell per index entry. -/
def WF (tbl : Table) : Prop :=
  ascending tbl.index = true ∧ ∀ p ∈ tbl.cols, p.2.length = tbl.index.length

/-- `name in data.columns`. -/
def hasCol (tbl : Table) (name : String) : Bool :=
  (tbl.cols.lookup name).isSome

/-- The cells of a column (empty if the column does not exist; guarded by
the alias check before use). -/
def colCells (tbl : Table) (name : String) : List (Option ℚ) :=
  (tbl.cols.lookup name).getD []

/-- A column as (timestamp, cell) rows. -/
def rowsOf (tbl : Table) (name : String) : List (ℚ × Option ℚ) :=
  tbl.index.zip (tbl.colCells name)

/-- `data[name].dropna()` as (timestamp, value) pairs, in index order. -/
def nonMissingPairs (tbl : Table) (name : String) : List (ℚ × ℚ) :=
  (tbl.rowsOf name).filterMap (fun p => p.2.map (fun v => (p.1, v)))

/-- `data[name].dropna().index`. -/
def nonMissingTimes (tbl : Table) (name : String) : List ℚ :=
  (tbl.nonMissingPairs name).map Prod.fst

/-- The cell found at timestamp `t` in a row list: exact index lookup. -/
def findCell (rows : List (ℚ × Option ℚ)) (t : ℚ) : Option ℚ :=
  match rows.find? (fun p => p.1 = t) with
  | some p => p.2
  | Option.none => Option.none

/-- The cell stored at timestamp `t` (`none` when `t` is not in the index,
or the stored value is missing). -/
def cellAt (tbl : Table) (name : String) (t : ℚ) : Option ℚ :=
  findCell (tbl.rowsOf name) t

end Table

/-- A table cell as a `float64` series element: missing is NaN. -/
def ofCell : Option ℚ → FVal
  | some v => FVal.num v
  | Option.none => FVal.nan

/-- `s.reindex(target_idx)` for a column converted with `pd.to_numeric`:
exact timestamp match or NaN. -/
def reindexCol (tbl : Table) (name : String) (target : List ℚ) : List FVal :=
  target.map (fun t => ofCell (tbl.cellAt name t))

/-- `_union_index`: union of the given timestamp lists, sorted ascending
(`pd.DatetimeIndex` union deduplicates; the source then sorts). -/
def unionIndex (indices : List (List ℚ)) : List ℚ :=
  List.insertionSort (· ≤ ·) (indices.foldr (· ++ ·) []).dedup

/-- The backward scan of `pd.merge_asof(..., direction="backward")`: the
last observation (in ascending order) whose timestamp is at or before `t`. -/
def asofPick (t : ℚ) : List (ℚ × ℚ) → Option (ℚ × ℚ)
  | [] => Option.none
  | p :: rest =>
      match asofPick t rest with
      | some q => some q
      | Option.none => if p.1 ≤ t then some p else Option.none

/-- `merge_asof` tolerance gate: `t - r ≤ tolerance` (inclusive), or no
bound when the tolerance is `None`. -/
def tolOk (tol : Option ℚ) (t r : ℚ) : Bool :=
  match tol with
  | Option.none => true
  | some d => decide (t - r ≤ d)

/-- One aligned cell of `_asof_align_series`: the backward match within
tolerance, or NaN. -/
def asofValue (obs : List (ℚ × ℚ)) (tol : Option ℚ) (t : ℚ) : FVal :=
  match asofPick t obs with
  | some p => if tolOk tol t p.1 then FVal.num p.2 else FVal.nan
  | Option.none => FVal.nan

/-- `_asof_align_series`: the non-missing observations of the series,
snapped backward onto each target timestamp within tolerance. -/
def asofAlign (obs : List (ℚ × ℚ)) (target : List ℚ) (tol : Option ℚ) :
    List FVal :=
  target.map (asofValue obs tol)

/-- `cross_align` policy. -/
inductive Align where
  | exact
  | asof
  deriving DecidableEq, Repr

/-- One component aligned onto the target axis (`compute_custom_index`
lines: `s.reindex(target_idx)` for `"exact"`, `_asof_align_series` for
`"asof"`). -/
def alignCol (tbl : Table) (name : String) (target : List ℚ) :
    Align → Option ℚ → List FVal
  | .exact, _ => reindexCol tbl name target
  | .asof, tol => asofAlign (tbl.nonMissingPairs name) target tol

/-! ## Frequency inference and the guard -/

/-- The native frequency labels. -/
inductive Periodicity where
  | daily | weekly | monthly | quarterly | yearly
  deriving DecidableEq, Repr

/-- `np.nanmedian` of a non-empty list (the diffs carry no NaN): sort
ascending, middle element, or the mean of the two middle elements. -/
def medianOf (l : List ℚ) : ℚ :=
  let s := List.insertionSort (· ≤ ·) l
  if s.length % 2 = 1 then s.getD (s.length / 2) 0
  else (s.getD (s.length / 2 - 1) 0 + s.getD (s.length / 2) 0) / 2

/-- Consecutive gaps of a timestamp list (in fractional days; the source
converts timedelta seconds to days, exact over `ℚ`). -/
def gapsOf : List ℚ → List ℚ
  | a :: b :: rest => (b - a) :: gapsOf (b :: rest)
  | _ => []

/-- `_median_days`: NaN (modelled `none`) for fewer than 2 timestamps,
otherwise the median of the consecutive gaps. -/
def medianDays (times : List ℚ) : Option ℚ :=
  if times.length < 2 then Option.none else some (medianOf (gapsOf times))

/-- The band dictionary of `_infer_periodicity_label` and
`_matches_periodicity`, in iteration order. -/
def bandList : List (Periodicity × ℚ × ℚ) :=
  [(.daily, 0.5, 3.5), (.weekly, 4, 10), (.monthly, 25, 35.5),
   (.quarterly, 80, 100), (.yearly, 320, 400)]

/-- `_infer_periodicity_label` on a median gap: the first band (dict
order) containing it, both endpoints included. -/
def classify (d : ℚ) : Option Periodicity :=
  (bandList.find? (fun b => decide (b.2.1 ≤ d ∧ d ≤ b.2.2))).map Prod.fst

/-- `_infer_periodicity_label` on an index. -/
def inferLabel (times : List ℚ) : Option Periodicity :=
  (medianDays times).bind classify

/-- `_matches_periodicity`: an undetermined median never blocks. -/
def matchesPeriodicity (times : List ℚ) (expected : Periodicity) : Bool :=
  match medianDays times with
  | Option.none => true
  | some d =>
      match bandList.lookup expected with
      | some b => decide (b.1 ≤ d ∧ d ≤ b.2)
      | Option.none => false

/-- The classified (non-unclassified) labels of the referenced aliases. -/
def classifiedLabels (tbl : Table) (names : List String) : List Periodicity :=
  names.filterMap (fun n => inferLabel (tbl.nonMissingTimes n))

/-- `_enforce_uniform_frequency`: more than one distinct classified label
fails fast with `MixedFrequencyError`. -/
def enforceUniform (tbl : Table) (names : List String) : Except CIError Unit :=
  if (classifiedLabels tbl names).dedup.length > 1 then .error .mixedFrequency
  else pure ()

/-- `_validate_all_series_frequency`: every referenced alias with at least
2 non-missing points must match the expected periodicity; the loop raises
at the first offender. -/
def validateExpected (tbl : Table) (names : List String) :
    Option Periodicity → Except CIError Unit
  | Option.none => pure ()
  | some p =>
      match names.find? (fun n =>
          2 ≤ (tbl.nonMissingTimes n).length
            && !(matchesPeriodicity (tbl.nonMissingTimes n) p)) with
      | some n => .error (.expectedMismatch n)
      | Option.none => pure ()

/-! ## Tolerance resolution and the entry point -/

/-- The `cross_align_tolerance` argument: `"auto"`, an explicit duration
(already converted to fractional days; `pd.to_timedelta` parsing is
external), or `None` (unbounded). -/
inductive TolArg where
  | auto
  | explicit (days : ℚ)
  | unbounded
  deriving DecidableEq, Repr

/-- `_resolve_tolerance`: `None` stays unbounded, an explicit duration is
used as-is, `"auto"` maps the expected periodicity through a fixed window
table with default 35 days. -/
def resolveTol : TolArg → Option Periodicity → Option ℚ
  | .unbounded, _ => Option.none
  | .explicit d, _ => some d
  | .auto, e =>
      some (match e with
        | some .daily => 3
        | some .weekly => 10
        | some .monthly => 35
        | some .quarterly => 100
        | some .yearly => 400
        | Option.none => 35)

/-- The warning text appended by the final infinity sweep. -/
def divWarning : String := "Division by zero encountered; converted ±inf to NaN."

/-- The final sweep of `compute_custom_index`: if any `±inf` survives in
the result, append the division-by-zero warning and replace infinities
with NaN. -/
def stripInfWarn (vals : List FVal) : List FVal × List String :=
  if vals.any FVal.isInf then (vals.map FVal.stripInf, [divWarning])
  else (vals, [])

/-- The metadata fields of `.attrs['custom_index_meta']` that the claims
mention. -/
structure CIMeta where
  warnings : List String
  crossAlignTolerance : Option ℚ
  deriving DecidableEq, Repr

/-- The output: the single named result series over the target axis, plus
metadata. -/
structure CIOutput where
  times : List ℚ
  values : List FVal
  meta : CIMeta
  deriving DecidableEq, Repr

/-- `compute_custom_index` (with the formula already parsed by CPython's
`ast.parse`; a syntax error there is external to this model). The
referenced-alias set is modelled as the in-order deduplicated list of
collected names — every use in the source is order-insensitive (sorted
messages, union axis, keyed lookups). -/
def compute (tbl : Table) (formula : PyExpr) (expected : Option Periodicity)
    (align : Align) (tolArg : TolArg) : Except CIError CIOutput :=
  match pyCheck formula with
  | .error e => .error e
  | .ok ns =>
    let referenced := ns.dedup
    if referenced.isEmpty then .error .emptyFormula
    else
      let missing := referenced.filter (fun n => !(tbl.hasCol n))
      if missing.isEmpty then
        match enforceUniform tbl referenced with
        | .error e => .error e
        | .ok _ =>
          match validateExpected tbl referenced expected with
          | .error e => .error e
          | .ok _ =>
            let target := unionIndex (referenced.map tbl.nonMissingTimes)
            let tol := resolveTol tolArg expected
            let env := referenced.map (fun n => (n, alignCol tbl n target align tol))
            match evalPy env target.length formula with
            | .error e => .error e
            | .ok vals =>
              let swept := stripInfWarn vals
              .ok ⟨target, swept.1, ⟨swept.2, tol⟩⟩
      else .error (.unknownAliases (List.insertionSort (· ≤ ·) missing))

/-- The output series alone (timestamps and values, no metadata): what the
caller reads off the returned single-column frame. -/
def resultSeries (r : Except CIError CIOutput) :
    Except CIError (List ℚ × List FVal) :=
  r.map (fun o => (o.times, o.values))

/-! ## Spec-side definitions

These are written from the specification's words (not from the source) and
are compared with the source-derived definitions above by the refinement
theorems below. -/

/-- Spec: classify a median day-gap by the inclusive bands
DAILY `[0.5, 3.5]`, WEEKLY `[4.0, 10.0]`, MONTHLY `[25.0, 35.5]`,
QUARTERLY `[80.0, 100.0]`, YEARLY `[320.0, 400.0]`; a gap outside every
band is unclassified. -/
def specClassify (d : ℚ) : Option Periodicity :=
  if 0.5 ≤ d ∧ d ≤ 3.5 then some .daily
  else if 4 ≤ d ∧ d ≤ 10 then some .weekly
  else if 25 ≤ d ∧ d ≤ 35.5 then some .monthly
  else if 80 ≤ d ∧ d ≤ 100 then some .quarterly
  else if 320 ≤ d ∧ d ≤ 400 then some .yearly
  else Option.none

/-- Spec: a series' periodicity is the classification of the median of its
consecutive-timestamp gaps over its non-missing points; fewer than 2
non-missing points leave the median undefined and the series
unclassified. -/
def specInferPeriodicity (times : List ℚ) : Option Periodicity :=
  if times.length < 2 then Option.none
  else specClassify (medianOf (gapsOf times))

/-- Spec: the most recent observation at or before `t` — an element of the
list whose timestamp is maximal among those `≤ t` (later occurrences win
ties). -/
def mostRecentAtOrBefore (obs : List (ℚ × ℚ)) (t : ℚ) : Option (ℚ × ℚ) :=
  (obs.filter (fun p => decide (p.1 ≤ t))).foldl
    (fun acc p =>
      match acc with
      | some q => if q.1 ≤ p.1 then some p else some q
      | Option.none => some p)
    Option.none

/-- Spec: the ASOF-aligned value at a target timestamp `t` — the most
recent non-missing observation at or before `t`, provided its gap to `t`
is within the tolerance, and missing otherwise. -/
def asofSpecValue (obs : List (ℚ × ℚ)) (tol : Option ℚ) (t : ℚ) : FVal :=
  match mostRecentAtOrBefore obs t with
  | some p => if tolOk tol t p.1 then FVal.num p.2 else FVal.nan
  | Option.none => FVal.nan

/-- The formula grammar that the validator actually accepts (the amended
reading of the spec's whitelist): numeric literals of Python type `int`,
`float` — and `bool`, which `isinstance(·, int)` admits — variable names,
unary `+`/`-`, and binary `+`, `-`, `*`, `/`, `**`. -/
def allowedAmended : PyExpr → Bool
  | .binop op l r => allowedBin op && allowedAmended l && allowedAmended r
  | .unaryop op e => allowedUnary op && allowedAmended e
  | .name _ => true
  | .const c =>
      match c with
      | .int _ | .float _ | .bool _ => true
      | _ => false
  | _ => false

/-- Whether the node's type is in the visitor's whitelist tuple
`(ast.Expression, ast.BinOp, ast.UnaryOp, ast.Name, ast.Constant)`. -/
def rootWhitelisted : PyExpr → Bool
  | .binop .. | .unaryop .. | .name _ | .const _ => true
  | _ => false

/-! ## Helper lemmas -/

section Helpers

open FVal

theorem zipWith_map_same {α β γ δ : Type} (f : β → γ → δ) (g : α → β)
    (h : α → γ) (l : List α) :
    List.zipWith f (l.map g) (l.map h) = l.map (fun x => f (g x) (h x)) := by
  induction l with
  | nil => rfl
  | cons a l ih => simp [ih]

theorem map_eq_self_of_forall {α : Type} (f : α → α) (l : List α)
    (h : ∀ x ∈ l, f x = x) : l.map f = l := by
  rw [List.map_congr_left h]; simp

theorem lookup_map_self {β : Type} (g : String → β) (l : List String)
    (n : String) (hn : n ∈ l) :
    (l.map (fun m => (m, g m))).lookup n = some (g n) := by
  induction l with
  | nil => cases hn
  | cons a l ih =>
      by_cases hna : n = a
      · subst hna; simp [List.lookup]
      · have : n ∈ l := by
          cases hn with
          | head => exact absurd rfl hna
          | tail _ h => exact h
        simp [List.lookup, beq_eq_false_iff_ne.mpr hna, ih this]

theorem divRep_isInf_false (a b : FVal) : (divRep a b).isInf = false := by
  unfold divRep
  cases fdivRaw a b <;> simp [stripInf, isInf]

theorem divRep_num_zero (a : FVal) : divRep a (num 0) = nan := by
  cases a with
  | num q =>
      by_cases h : q = 0 <;>
        by_cases h2 : 0 < q <;>
          simp [divRep, fdivRaw, stripInf, h, h2]
  | inf s => by_cases h : (0:ℚ) < 0 <;> simp [divRep, fdivRaw, stripInf, h]
  | nan => simp [divRep, fdivRaw, stripInf]

theorem stripInfWarn_of_no_inf (l : List FVal)
    (h : ∀ v ∈ l, v.isInf = false) : stripInfWarn l = (l, []) := by
  have : l.any isInf = false := List.any_eq_false.mpr (by
    intro x hx
    simp [h x hx])
  simp [stripInfWarn, this]

theorem addFill_ofCell (a b : Option ℚ) :
    addFill (ofCell a) (ofCell b) =
      (match a, b with
       | some x, some y => num (x + y)
       | some x, Option.none => num x
       | Option.none, some y => num y
       | Option.none, Option.none => nan) := by
  cases a <;> cases b <;> simp [ofCell, addFill, fadd]

theorem subFill_ofCell (a b : Option ℚ) :
    subFill (ofCell a) (ofCell b) =
      (match a, b with
       | some x, some y => num (x - y)
       | some x, Option.none => num x
       | Option.none, some y => num (-y)
       | Option.none, Option.none => nan) := by
  cases a <;> cases b <;>
    simp [ofCell, subFill, fsub, fadd, fneg, sub_eq_add_neg]

theorem fmul_ofCell (a b : Option ℚ) :
    fmul (ofCell a) (ofCell b) =
      (match a, b with
       | some x, some y => num (x * y)
       | _, _ => nan) := by
  cases a <;> cases b <;> simp [ofCell, fmul]

theorem divRep_ofCell (a b : Option ℚ) :
    divRep (ofCell a) (ofCell b) =
      (match a, b with
       | some x, some y => if y = 0 then nan else num (x / y)
       | _, _ => nan) := by
  cases a with
  | none => cases b <;> simp [ofCell, divRep, fdivRaw, stripInf]
  | some x =>
      cases b with
      | none => simp [ofCell, divRep, fdivRaw, stripInf]
      | some y =>
          by_cases hy : y = 0
          · subst hy
            simpa [ofCell] using divRep_num_zero (num x)
          · simp [ofCell, divRep, fdivRaw, stripInf, hy]

theorem addFill_ofCell_isInf_false (a b : Option ℚ) :
    (addFill (ofCell a) (ofCell b)).isInf = false := by
  rw [addFill_ofCell]; cases a <;> cases b <;> simp [isInf]

theorem subFill_ofCell_isInf_false (a b : Option ℚ) :
    (subFill (ofCell a) (ofCell b)).isInf = false := by
  rw [subFill_ofCell]; cases a <;> cases b <;> simp [isInf]

theorem fmul_ofCell_isInf_false (a b : Option ℚ) :
    (fmul (ofCell a) (ofCell b)).isInf = false := by
  rw [fmul_ofCell]; cases a <;> cases b <;> simp [isInf]

theorem pyCheck_name (A : String) : pyCheck (.name A) = .ok [A] := rfl

theorem pyCheck_binop_names (op : PyBinOpKind) (A B : String)
    (hop : allowedBin op = true) :
    pyCheck (.binop op (.name A) (.name B)) = .ok [A, B] := by
  simp [pyCheck, hop]; rfl

theorem evalPy_name (env : List (String × List FVal)) (len : Nat)
    (A : String) (sA : List FVal) (hA : env.lookup A = some sA) :
    evalPy env len (.name A) = .ok sA := by
  simp [evalPy, hA]; rfl

theorem evalPy_binop_names (env : List (String × List FVal)) (len : Nat)
    (op : PyBinOpKind) (f : FVal → FVal → FVal) (A B : String)
    (sA sB : List FVal) (hf : binFun? op = some f)
    (hA : env.lookup A = some sA) (hB : env.lookup B = some sB) :
    evalPy env len (.binop op (.name A) (.name B)) =
      .ok (List.zipWith f sA sB) := by
  simp [evalPy, hA, hB, hf]; rfl

theorem dedup_pair {A B : String} (hAB : A ≠ B) :
    ([A, B] : List String).dedup = [A, B] := by
  have h1 : ([B] : List String).dedup = [B] := by
    rw [show ([B] : List String) = B :: ([] : List String) from rfl,
      List.dedup_cons_of_not_mem (List.not_mem_nil B), List.dedup_nil]
  rw [List.dedup_cons_of_not_mem (by simp [h1, hAB]), h1]

theorem enforceUniform_single (tbl : Table) (X : String) :
    enforceUniform tbl [X] = .ok () := by
  unfold enforceUniform classifiedLabels
  cases h : inferLabel (tbl.nonMissingTimes X) <;>
    simp [h, pure, Except.pure]

theorem enforceUniform_not_error (tbl : Table) (names : List String)
    (h : ¬ (classifiedLabels tbl names).dedup.length > 1) :
    enforceUniform tbl names = .ok () := by
  simp [enforceUniform, h, pure, Except.pure]

theorem asofPick_mem {t : ℚ} {obs : List (ℚ × ℚ)} {p : ℚ × ℚ}
    (h : asofPick t obs = some p) : p ∈ obs ∧ p.1 ≤ t := by
  induction obs with
  | nil => simp [asofPick] at h
  | cons q rest ih =>
      unfold asofPick at h
      cases hr : asofPick t rest with
      | some q' =>
          rw [hr] at h
          injection h with h'
          subst h'
          obtain ⟨hm, hle⟩ := ih hr
          exact ⟨List.mem_cons_of_mem _ hm, hle⟩
      | none =>
          rw [hr] at h
          by_cases hq : q.1 ≤ t
          · rw [if_pos hq] at h
            injection h with h'
            subst h'
            exact ⟨List.mem_cons_self _ _, hq⟩
          · rw [if_neg hq] at h
            exact absurd h (by simp)

theorem asofPick_eq_getLast (t : ℚ) (obs : List (ℚ × ℚ)) :
    asofPick t obs = (obs.filter (fun p => decide (p.1 ≤ t))).getLast? := by
  induction obs with
  | nil => rfl
  | cons q rest ih =>
      unfold asofPick
      rw [ih]
      by_cases hq : q.1 ≤ t
      · rw [List.filter_cons_of_pos (by simpa using hq)]
        cases hfil : rest.filter (fun p => decide (p.1 ≤ t)) with
        | nil => simp [hq]
        | cons x xs =>
            rw [List.getLast?_cons_cons, List.getLast?_cons]
      · rw [List.filter_cons_of_neg (by simpa using hq)]
        cases hl : (rest.filter (fun p => decide (p.1 ≤ t))).getLast? with
        | some q' => rfl
        | none => rw [if_neg hq]

theorem mostRecent_foldl_last {step : Option (ℚ × ℚ) → ℚ × ℚ → Option (ℚ × ℚ)}
    (hstep : step = fun acc p =>
      match acc with
      | some q => if q.1 ≤ p.1 then some p else some q
      | Option.none => some p)
    (l : List (ℚ × ℚ)) (hl : l.Pairwise (fun p q => p.1 ≤ q.1)) (q : ℚ × ℚ)
    (hq : ∀ p ∈ l, q.1 ≤ p.1) :
    l.foldl step (some q) = some (l.getLastD q) := by
  induction l generalizing q with
  | nil => simp
  | cons p rest ih =>
      have h1 : step (some q) p = some p := by
        simp [hstep, hq p (List.mem_cons_self _ _)]
      rw [List.foldl_cons, h1, List.getLastD_cons]
      exact ih hl.of_cons p (fun r hr => List.rel_of_pairwise_cons hl hr)

theorem mostRecent_eq_getLast (obs : List (ℚ × ℚ)) (t : ℚ)
    (hobs : obs.Pairwise (fun p q => p.1 ≤ q.1)) :
    mostRecentAtOrBefore obs t =
      (obs.filter (fun p => decide (p.1 ≤ t))).getLast? := by
  unfold mostRecentAtOrBefore
  cases hcase : obs.filter (fun p => decide (p.1 ≤ t)) with
  | nil => rfl
  | cons x xs =>
      have hfil : (x :: xs).Pairwise (fun p q => p.1 ≤ q.1) :=
        hobs.sublist (hcase ▸ List.filter_sublist obs)
      simp only [List.foldl_cons]
      rw [mostRecent_foldl_last rfl xs hfil.of_cons x
        (fun r hr => List.rel_of_pairwise_cons hfil hr)]
      rw [List.getLast?_cons]
      simp [List.getLastD_eq_getLast?]

theorem asofValue_eq_spec (obs : List (ℚ × ℚ)) (t : ℚ) (tol : Option ℚ)
    (hobs : obs.Pairwise (fun p q => p.1 ≤ q.1)) :
    asofValue obs tol t = asofSpecValue obs tol t := by
  unfold asofValue asofSpecValue
  rw [asofPick_eq_getLast, ← mostRecent_eq_getLast obs t hobs]

theorem ascending_pairwise : ∀ l : List ℚ,
    Table.ascending l = true → l.Pairwise (· < ·)
  | [] => fun _ => List.Pairwise.nil
  | [a] => fun _ => List.pairwise_singleton _ a
  | a :: b :: r => fun h => by
      unfold Table.ascending at h
      rw [Bool.and_eq_true] at h
      have hab : a < b := of_decide_eq_true h.1
      have htail := ascending_pairwise (b :: r) h.2
      refine List.Pairwise.cons (fun x hx => ?_) htail
      cases hx with
      | head => exact hab
      | tail _ hx => exact lt_trans hab (List.rel_of_pairwise_cons htail hx)

theorem pairwise_fst_zip {α : Type} {R : ℚ → ℚ → Prop} :
    ∀ (l : List ℚ) (l2 : List α), l.Pairwise R →
      (l.zip l2).Pairwise (fun p q => R p.1 q.1)
  | [], _, _ => by simp
  | _ :: _, [], _ => by simp
  | a :: l, b :: l2, h => by
      rw [List.zip_cons_cons]
      refine List.Pairwise.cons (fun x hx => ?_)
        (pairwise_fst_zip l l2 h.of_cons)
      exact List.rel_of_pairwise_cons h (List.of_mem_zip hx).1

theorem mem_filterMap_pairs_fst {rows : List (ℚ × Option ℚ)} {t v : ℚ}
    (hm : (t, v) ∈ rows.filterMap (fun p => p.2.map (fun w => (p.1, w)))) :
    ∃ q ∈ rows, q.1 = t ∧ q.2 = some v := by
  rcases List.mem_filterMap.mp hm with ⟨q, hq, hfq⟩
  cases h2 : q.2 with
  | none => rw [h2] at hfq; simp at hfq
  | some w =>
      rw [h2] at hfq
      simp only [Option.map_some'] at hfq
      injection hfq with h3
      injection h3 with h4 h5
      exact ⟨q, hq, h4, by rw [h2, h5]⟩

theorem findCell_of_mem_pairs :
    ∀ (rows : List (ℚ × Option ℚ)),
      rows.Pairwise (fun p q => p.1 < q.1) → ∀ {t v : ℚ},
      (t, v) ∈ rows.filterMap (fun p => p.2.map (fun w => (p.1, w))) →
      Table.findCell rows t = some v := by
  intro rows
  induction rows with
  | nil => intro _ t v hm; simp [List.filterMap] at hm
  | cons r rest ih =>
      intro hrows t v hm
      by_cases hrt : r.1 = t
      · have hfind : Table.findCell (r :: rest) t = r.2 := by
          unfold Table.findCell
          rw [List.find?_cons_of_pos _ (by simp [hrt])]
        rw [hfind]
        rcases mem_filterMap_pairs_fst hm with ⟨q, hq, hq1, hq2⟩
        cases hq with
        | head => rw [hq2]
        | tail _ hq' =>
            have := List.rel_of_pairwise_cons hrows hq'
            rw [hrt, hq1] at this
            exact absurd this (lt_irrefl t)
      · have hfind : Table.findCell (r :: rest) t = Table.findCell rest t := by
          unfold Table.findCell
          rw [List.find?_cons_of_neg _ (by simp [hrt])]
        rw [hfind]
        have hm' : (t, v) ∈ rest.filterMap (fun p => p.2.map (fun w => (p.1, w))) := by
          rcases List.mem_filterMap.mp hm with ⟨q, hq, hfq⟩
          cases hq with
          | head =>
              cases h2 : r.2 with
              | none => rw [h2] at hfq; simp at hfq
              | some w =>
                  rw [h2] at hfq
                  simp only [Option.map_some'] at hfq
                  injection hfq with h3
                  injection h3 with h4 _
                  exact absurd h4 hrt
          | tail _ hq' => exact List.mem_filterMap.mpr ⟨q, hq', hfq⟩
        exact ih hrows.of_cons hm'

theorem rowsOf_pairwise (tbl : Table) (X : String) (hwf : tbl.WF) :
    (tbl.rowsOf X).Pairwise (fun p q => p.1 < q.1) :=
  pairwise_fst_zip _ _ (ascending_pairwise _ hwf.1)

theorem nonMissingPairs_pairwise (tbl : Table) (X : String) (hwf : tbl.WF) :
    (tbl.nonMissingPairs X).Pairwise (fun p q => p.1 < q.1) := by
  unfold Table.nonMissingPairs
  refine List.Pairwise.filterMap _ ?_ (rowsOf_pairwise tbl X hwf)
  intro a a' hlt b hb b' hb'
  cases h2 : a.2 with
  | none => rw [h2] at hb; simp at hb
  | some w =>
      rw [h2] at hb
      simp only [Option.map_some, Option.mem_def] at hb
      cases h2' : a'.2 with
      | none => rw [h2'] at hb'; simp at hb'
      | some w' =>
          rw [h2'] at hb'
          simp only [Option.map_some, Option.mem_def] at hb'
          injection hb with hbe
          injection hb' with hbe'
          rw [← hbe, ← hbe']
          exact hlt

theorem nonMissingTimes_pairwise (tbl : Table) (X : String) (hwf : tbl.WF) :
    (tbl.nonMissingTimes X).Pairwise (· < ·) := by
  unfold Table.nonMissingTimes
  exact List.pairwise_map.mpr (nonMissingPairs_pairwise tbl X hwf)

theorem unionIndex_single (l : List ℚ) (hl : l.Pairwise (· < ·)) :
    unionIndex [l] = l := by
  unfold unionIndex
  have h1 : (([l] : List (List ℚ)).foldr (· ++ ·) []) = l := by simp
  rw [h1, List.dedup_eq_self.mpr (hl.imp ne_of_lt)]
  exact List.eq_of_perm_of_sorted (List.perm_insertionSort _ l)
    (List.sorted_insertionSort _ l) (hl.imp le_of_lt)

theorem reindexCol_own_times (tbl : Table) (X : String) (hwf : tbl.WF) :
    reindexCol tbl X (tbl.nonMissingTimes X) =
      (tbl.nonMissingPairs X).map (fun p => FVal.num p.2) := by
  unfold reindexCol Table.nonMissingTimes
  rw [List.map_map]
  refine List.map_congr_left ?_
  intro p hp
  obtain ⟨t, v⟩ := p
  have hcell : tbl.cellAt X t = some v := by
    unfold Table.cellAt
    exact findCell_of_mem_pairs _ (rowsOf_pairwise tbl X hwf) hp
  simp [Function.comp, hcell, ofCell]

/-- The intermediate data of a successful two-name binop run. -/
def binopTarget (tbl : Table) (A B : String) : List ℚ :=
  unionIndex [tbl.nonMissingTimes A, tbl.nonMissingTimes B]

/-- The evaluated (pre-sweep) series of a successful two-name binop run. -/
def binopVals (tbl : Table) (A B : String) (f : FVal → FVal → FVal)
    (expected : Option Periodicity) (align : Align) (tolArg : TolArg) :
    List FVal :=
  List.zipWith f
    (alignCol tbl A (binopTarget tbl A B) align (resolveTol tolArg expected))
    (alignCol tbl B (binopTarget tbl A B) align (resolveTol tolArg expected))

theorem compute_binop_names (tbl : Table) (op : PyBinOpKind)
    (f : FVal → FVal → FVal) (A B : String) (expected : Option Periodicity)
    (align : Align) (tolArg : TolArg) (hAB : A ≠ B)
    (hop : allowedBin op = true) (hf : binFun? op = some f)
    (hA : tbl.hasCol A = true) (hB : tbl.hasCol B = true)
    (hfreq : enforceUniform tbl [A, B] = .ok ())
    (hval : validateExpected tbl [A, B] expected = .ok ()) :
    compute tbl (.binop op (.name A) (.name B)) expected align tolArg =
      .ok ⟨binopTarget tbl A B,
           (stripInfWarn (binopVals tbl A B f expected align tolArg)).1,
           ⟨(stripInfWarn (binopVals tbl A B f expected align tolArg)).2,
            resolveTol tolArg expected⟩⟩ := by
  unfold compute
  rw [pyCheck_binop_names op A B hop]
  simp only [dedup_pair hAB, List.map_cons, List.map_nil]
  have hmiss : (List.filter (fun n => !tbl.hasCol n) [A, B]) = [] := by
    simp [hA, hB]
  simp only [hmiss, List.isEmpty_nil, List.isEmpty_cons, hfreq, hval]
  have hlookA :
      List.lookup A
        [(A, alignCol tbl A (unionIndex [tbl.nonMissingTimes A,
            tbl.nonMissingTimes B]) align (resolveTol tolArg expected)),
         (B, alignCol tbl B (unionIndex [tbl.nonMissingTimes A,
            tbl.nonMissingTimes B]) align (resolveTol tolArg expected))] =
        some (alignCol tbl A (unionIndex [tbl.nonMissingTimes A,
            tbl.nonMissingTimes B]) align (resolveTol tolArg expected)) := by
    simp [List.lookup]
  have hlookB :
      List.lookup B
        [(A, alignCol tbl A (unionIndex [tbl.nonMissingTimes A,
            tbl.nonMissingTimes B]) align (resolveTol tolArg expected)),
         (B, alignCol tbl B (unionIndex [tbl.nonMissingTimes A,
            tbl.nonMissingTimes B]) align (resolveTol tolArg expected))] =
        some (alignCol tbl B (unionIndex [tbl.nonMissingTimes A,
            tbl.nonMissingTimes B]) align (resolveTol tolArg expected)) := by
    simp [List.lookup, beq_eq_false_iff_ne.mpr (Ne.symm hAB)]
  rw [evalPy_binop_names _ _ _ f A B _ _ hf hlookA hlookB]
  simp [binopTarget, binopVals]

theorem compute_single_name (tbl : Table) (X : String)
    (expected : Option Periodicity) (align : Align) (tolArg : TolArg)
    (hX : tbl.hasCol X = true)
    (hval : validateExpected tbl [X] expected = .ok ()) :
    compute tbl (.name X) expected align tolArg =
      .ok ⟨unionIndex [tbl.nonMissingTimes X],
           (stripInfWarn (alignCol tbl X (unionIndex [tbl.nonMissingTimes X])
              align (resolveTol tolArg expected))).1,
           ⟨(stripInfWarn (alignCol tbl X (unionIndex [tbl.nonMissingTimes X])
              align (resolveTol tolArg expected))).2,
            resolveTol tolArg expected⟩⟩ := by
  have hded : ([X] : List String).dedup = [X] := by
    rw [show ([X] : List String) = X :: ([] : List String) from rfl,
      List.dedup_cons_of_not_mem (List.not_mem_nil X), List.dedup_nil]
  unfold compute
  rw [pyCheck_name X]
  simp only [hded, List.map_cons, List.map_nil]
  have hmiss : (List.filter (fun n => !tbl.hasCol n) [X]) = [] := by
    simp [hX]
  simp only [hmiss, List.isEmpty_nil, List.isEmpty_cons,
    enforceUniform_single tbl X, hval]
  have hlook :
      List.lookup X
        [(X, alignCol tbl X (unionIndex [tbl.nonMissingTimes X]) align
            (resolveTol tolArg expected))] =
        some (alignCol tbl X (unionIndex [tbl.nonMissingTimes X]) align
            (resolveTol tolArg expected)) := by
    simp [List.lookup]
  rw [evalPy_name _ _ X _ hlook]
  simp

theorem allowedBin_binFun (op : PyBinOpKind) (hop : allowedBin op = true) :
    ∃ f, binFun? op = some f := by
  cases op <;> simp [allowedBin] at hop ⊢ <;> simp [binFun?]

theorem evalPy_ok_of_check :
    ∀ (f : PyExpr) (ns : List String), pyCheck f = .ok ns →
      ∀ (env : List (String × List FVal)) (len : Nat),
        (∀ n ∈ ns, (env.lookup n).isSome = true) →
        ∃ vs, evalPy env len f = .ok vs := by
  intro f
  induction f with
  | binop op l r ihl ihr =>
      intro ns hc env len henv
      by_cases hop : allowedBin op
      · simp only [pyCheck, if_pos hop] at hc
        cases hl : pyCheck l with
        | error e => rw [hl] at hc; simp [Bind.bind, Except.bind] at hc
        | ok nl =>
            cases hr : pyCheck r with
            | error e =>
                rw [hl, hr] at hc
                simp [Bind.bind, Except.bind] at hc
            | ok nr =>
                rw [hl, hr] at hc
                simp only [Bind.bind, Except.bind, pure, Except.pure,
                  Except.ok.injEq] at hc
                obtain ⟨vl, hvl⟩ := ihl nl hl env len (fun n hn => henv n
                  (by rw [← hc]; exact List.mem_append_left _ hn))
                obtain ⟨vr, hvr⟩ := ihr nr hr env len (fun n hn => henv n
                  (by rw [← hc]; exact List.mem_append_right _ hn))
                obtain ⟨g, hg⟩ := allowedBin_binFun op hop
                refine ⟨List.zipWith g vl vr, ?_⟩
                simp [evalPy, hvl, hvr, hg, Bind.bind, Except.bind, pure,
                  Except.pure]
      · simp only [pyCheck, if_neg hop] at hc
        exact absurd hc (by simp)
  | unaryop op e ih =>
      intro ns hc env len henv
      by_cases hop : allowedUnary op
      · simp only [pyCheck, if_pos hop] at hc
        obtain ⟨v, hv⟩ := ih ns hc env len henv
        cases op with
        | uadd => exact ⟨v, by
            simp [evalPy, hv, Bind.bind, Except.bind, pure, Except.pure]⟩
        | usub => exact ⟨v.map FVal.fneg, by
            simp [evalPy, hv, Bind.bind, Except.bind, pure, Except.pure]⟩
        | not => simp [allowedUnary] at hop
        | invert => simp [allowedUnary] at hop
      · simp only [pyCheck, if_neg hop] at hc
        exact absurd hc (by simp)
  | name s =>
      intro ns hc env len henv
      simp only [pyCheck, pure, Except.pure, Except.ok.injEq] at hc
      have hsome := henv s (by rw [← hc]; exact List.mem_singleton_self s)
      obtain ⟨v, hv⟩ := Option.isSome_iff_exists.mp hsome
      exact ⟨v, by simp [evalPy, hv, pure, Except.pure]⟩
  | const c =>
      intro ns hc env len henv
      cases c with
      | int n =>
          refine ⟨List.replicate len (FVal.num (n : ℚ)), ?_⟩
          simp [evalPy, constVal, Bind.bind, Except.bind, pure, Except.pure]
      | float q =>
          refine ⟨List.replicate len (FVal.num q), ?_⟩
          simp [evalPy, constVal, Bind.bind, Except.bind, pure, Except.pure]
      | bool b =>
          refine ⟨List.replicate len (FVal.num (if b then 1 else 0)), ?_⟩
          simp [evalPy, constVal, Bind.bind, Except.bind, pure, Except.pure]
      | str s => exact absurd hc (by simp [pyCheck])
      | none => exact absurd hc (by simp [pyCheck])
      | complex => exact absurd hc (by simp [pyCheck])
      | bytes => exact absurd hc (by simp [pyCheck])
      | ellipsis => exact absurd hc (by simp [pyCheck])
  | call g a ihg iha =>
      intro ns hc env len henv
      exact absurd hc (by simp [pyCheck])
  | compare l r ihl ihr =>
      intro ns hc env len henv
      exact absurd hc (by simp [pyCheck])
  | subscript v i ihv ihi =>
      intro ns hc env len henv
      exact absurd hc (by simp [pyCheck])
  | attr v a ihv =>
      intro ns hc env len henv
      exact absurd hc (by simp [pyCheck])
  | listLit x y ihx ihy =>
      intro ns hc env len henv
      exact absurd hc (by simp [pyCheck])
  | boolop x y ihx ihy =>
      intro ns hc env len henv
      exact absurd hc (by simp [pyCheck])
  | ifexp t b o iht ihb iho =>
      intro ns hc env len henv
      exact absurd hc (by simp [pyCheck])
  | lambda b ihb =>
      intro ns hc env len henv
      exact absurd hc (by simp [pyCheck])

theorem stripInf_of_not_inf (v : FVal) (h : v.isInf = false) :
    v.stripInf = v := by
  cases v <;> simp [FVal.isInf, FVal.stripInf] at h ⊢

theorem stripInfWarn_fst (l : List FVal) :
    (stripInfWarn l).1 = l.map FVal.stripInf := by
  unfold stripInfWarn
  by_cases h : l.any FVal.isInf
  · simp [h]
  · simp only [h, Bool.false_eq_true, if_neg, if_false]
    refine (map_eq_self_of_forall _ _ ?_).symm
    intro v hv
    exact stripInf_of_not_inf v (by
      rcases Bool.eq_false_iff.mpr (fun hh => h (List.any_eq_true.mpr ⟨v, hv, hh⟩)) with hf
      exact hf)

theorem fpow_ofCell_strip (a b : Option ℚ) :
    FVal.stripInf (FVal.fpow (ofCell a) (ofCell b)) =
      (match a, b with
       | some x, some y => FVal.stripInf (FVal.fpow (.num x) (.num y))
       | Option.none, some y => if y = 0 then FVal.num 1 else FVal.nan
       | some x, Option.none => if x = 1 then FVal.num 1 else FVal.nan
       | Option.none, Option.none => FVal.nan) := by
  cases a with
  | none =>
      cases b with
      | none => rfl
      | some y =>
          by_cases hy : y = 0 <;>
            simp [ofCell, FVal.fpow, hy, FVal.stripInf]
  | some x =>
      cases b with
      | none =>
          by_cases hx : x = 1 <;>
            simp [ofCell, FVal.fpow, hx, FVal.stripInf]
      | some y => rfl

theorem exact_binopVals_map (tbl : Table) (A B : String)
    (f : FVal → FVal → FVal) (expected : Option Periodicity)
    (tolArg : TolArg) :
    binopVals tbl A B f expected .exact tolArg =
      (binopTarget tbl A B).map
        (fun t => f (ofCell (tbl.cellAt A t)) (ofCell (tbl.cellAt B t))) := by
  unfold binopVals
  rw [show alignCol tbl A (binopTarget tbl A B) .exact
        (resolveTol tolArg expected) =
      reindexCol tbl A (binopTarget tbl A B) from rfl]
  rw [show alignCol tbl B (binopTarget tbl A B) .exact
        (resolveTol tolArg expected) =
      reindexCol tbl B (binopTarget tbl A B) from rfl]
  unfold reindexCol
  rw [zipWith_map_same]

theorem classify_eq_specClassify (d : ℚ) : classify d = specClassify d := by
  unfold classify specClassify bandList
  by_cases h1 : (0.5:ℚ) ≤ d ∧ d ≤ 3.5 <;>
    by_cases h2 : (4:ℚ) ≤ d ∧ d ≤ 10 <;>
      by_cases h3 : (25:ℚ) ≤ d ∧ d ≤ 35.5 <;>
        by_cases h4 : (80:ℚ) ≤ d ∧ d ≤ 100 <;>
          by_cases h5 : (320:ℚ) ≤ d ∧ d ≤ 400 <;>
            simp [List.find?, h1, h2, h3, h4, h5]

end Helpers

/-! ## The claims -/

/-- **C7**: for every series, the inferred periodicity is the
classification of the median consecutive-timestamp day-gap of its
non-missing points (the pipeline applies `inferLabel` to
`nonMissingTimes`), using the inclusive bands DAILY `[0.5, 3.5]`,
WEEKLY `[4.0, 10.0]`, MONTHLY `[25.0, 35.5]`, QUARTERLY `[80.0, 100.0]`,
YEARLY `[320.0, 400.0]`; a median gap outside every band, or a series with
fewer than 2 points (undefined median), is unclassified. -/
theorem c7_periodicity_classification :
    ∀ times : List ℚ, inferLabel times = specInferPeriodicity times := by
  intro times
  unfold inferLabel medianDays specInferPeriodicity
  by_cases h : times.length < 2
  · simp [h]
  · simp [h, classify_eq_specClassify]

/-- **C2**: under ASOF alignment, the aligned series equals, at every
target timestamp, the spec value — the most recent non-missing observation
at or before that timestamp if its gap is within the tolerance, missing
otherwise — and every present aligned value is sourced from an observation
at or before the target timestamp (no look-ahead), within tolerance. -/
theorem c2_asof_no_lookahead (obs : List (ℚ × ℚ)) (target : List ℚ)
    (tol : Option ℚ) (hobs : obs.Pairwise (fun p q => p.1 ≤ q.1)) :
    asofAlign obs target tol = target.map (asofSpecValue obs tol) ∧
    ∀ t q, asofValue obs tol t = .num q →
      ∃ r, (r, q) ∈ obs ∧ r ≤ t ∧ tolOk tol t r = true := by
  constructor
  · unfold asofAlign
    exact List.map_congr_left (fun t _ => asofValue_eq_spec obs t tol hobs)
  · intro t q h
    unfold asofValue at h
    cases hp : asofPick t obs with
    | none => rw [hp] at h; exact absurd h (by simp)
    | some p =>
        simp only [hp] at h
        by_cases htol : tolOk tol t p.1 = true
        · rw [if_pos htol] at h
          injection h with h'
          obtain ⟨hm, hle⟩ := asofPick_mem hp
          refine ⟨p.1, ?_, hle, htol⟩
          rw [← h']
          simpa using hm
        · rw [if_neg htol] at h
          exact absurd h (by simp)

/-- Concrete observations for the C2 witness: values at days 0 and 2. -/
def obsC2 : List (ℚ × ℚ) := [(0, 10), (2, 20)]

theorem c2_asof_no_lookahead_witness :
    (asofAlign obsC2 [1, 4] (some 1) =
      [1, 4].map (asofSpecValue obsC2 (some 1)) ∧
    ∀ t q, asofValue obsC2 (some 1) t = .num q →
      ∃ r, (r, q) ∈ obsC2 ∧ r ≤ t ∧ tolOk (some 1) t r = true) ∧
    asofAlign obsC2 [1, 4] (some 1) = [FVal.num 10, FVal.nan] := by
  refine ⟨c2_asof_no_lookahead obsC2 [1, 4] (some 1) ?_, ?_⟩
  · norm_num [obsC2, List.pairwise_cons]
  · norm_num [obsC2, asofAlign, asofValue, asofPick, tolOk]

/-- **C6** (amended): the validator accepts exactly the formulas built from
int/float — and, because `isinstance(True, int)` holds in Python, `bool` —
constants, variable names, unary `+`/`-`, and binary `+ - * / **`; every
expression whose root node type is outside the visitor whitelist is
rejected with an error naming the offending construct. -/
theorem c6_forbidden_construct_rejection :
    ∀ p : PyExpr,
      ((pyCheck p).isOk = allowedAmended p) ∧
      (rootWhitelisted p = false →
        pyCheck p = .error (.forbiddenElement p.nodeName)) := by
  intro p
  induction p with
  | binop op l r ihl ihr =>
      refine ⟨?_, fun h => by simp [rootWhitelisted] at h⟩
      by_cases hop : allowedBin op
      · cases hl : pyCheck l with
        | error e =>
            have : allowedAmended l = false := by
              have := ihl.1; rw [hl] at this; exact this.symm
            simp [pyCheck, hop, hl, allowedAmended, this, Bind.bind, Except.bind,
              Except.isOk, Except.toBool]
        | ok nl =>
            cases hr : pyCheck r with
            | error e =>
                have : allowedAmended r = false := by
                  have := ihr.1; rw [hr] at this; exact this.symm
                have hal : allowedAmended l = true := by
                  have := ihl.1; rw [hl] at this; exact this.symm
                simp [pyCheck, hop, hl, hr, allowedAmended, this, hal,
                  Bind.bind, Except.bind, Except.isOk, Except.toBool]
            | ok nr =>
                have hal : allowedAmended l = true := by
                  have := ihl.1; rw [hl] at this; exact this.symm
                have har : allowedAmended r = true := by
                  have := ihr.1; rw [hr] at this; exact this.symm
                simp [pyCheck, hop, hl, hr, allowedAmended, hal, har,
                  Bind.bind, Except.bind, Except.isOk, Except.toBool, pure,
                  Except.pure]
      · simp [pyCheck, hop, allowedAmended, Except.isOk, Except.toBool]
  | unaryop op e ih =>
      refine ⟨?_, fun h => by simp [rootWhitelisted] at h⟩
      by_cases hop : allowedUnary op
      · have := ih.1
        simp [pyCheck, hop, allowedAmended, this]
      · simp [pyCheck, hop, allowedAmended, Except.isOk, Except.toBool]
  | name s =>
      exact ⟨by simp [pyCheck, allowedAmended, pure, Except.pure, Except.isOk,
        Except.toBool], fun h => by simp [rootWhitelisted] at h⟩
  | const c =>
      refine ⟨?_, fun h => by simp [rootWhitelisted] at h⟩
      cases c <;> simp [pyCheck, allowedAmended, pure, Except.pure,
        Except.isOk, Except.toBool]
  | call f a ihf iha => exact ⟨rfl, fun _ => rfl⟩
  | compare l r ihl ihr => exact ⟨rfl, fun _ => rfl⟩
  | subscript v i ihv ihi => exact ⟨rfl, fun _ => rfl⟩
  | attr v a ihv => exact ⟨rfl, fun _ => rfl⟩
  | listLit x y ihx ihy => exact ⟨rfl, fun _ => rfl⟩
  | boolop x y ihx ihy => exact ⟨rfl, fun _ => rfl⟩
  | ifexp t b o iht ihb iho => exact ⟨rfl, fun _ => rfl⟩
  | lambda b ihb => exact ⟨rfl, fun _ => rfl⟩

theorem c6_forbidden_construct_rejection_witness :
    pyCheck (.call (.name "f") (.const (.int 1))) =
      .error (.forbiddenElement "Call") :=
  (c6_forbidden_construct_rejection (.call (.name "f") (.const (.int 1)))).2 rfl

/-- **C6** counterexample: the claim says constants of any type other than
int/float are rejected, but a Python `bool` constant (`type(True) is
bool`, not `int` or `float`) passes the validator because
`isinstance(True, int)` holds: `A + True` is accepted, and its referenced
aliases are collected as if nothing were wrong. -/
theorem c6_counterexample :
    pyCheck (.binop .add (.name "A") (.const (.bool true))) = .ok ["A"] := rfl

/-- **C9**: for a valid single-alias formula `"X"` under EXACT alignment,
the output is exactly the input series reindexed onto its own non-missing
timestamp axis: the target axis is the (sorted union of the) non-missing
timestamps of `X`, and the values are `X`'s own non-missing values, with
no warnings. -/
theorem c9_single_alias_roundtrip (tbl : Table) (X : String) (tolArg : TolArg)
    (hwf : tbl.WF) (hX : tbl.hasCol X = true) :
    compute tbl (.name X) Option.none .exact tolArg =
      .ok ⟨tbl.nonMissingTimes X,
           (tbl.nonMissingPairs X).map (fun p => FVal.num p.2),
           ⟨[], resolveTol tolArg Option.none⟩⟩ := by
  have hu : unionIndex [tbl.nonMissingTimes X] = tbl.nonMissingTimes X :=
    unionIndex_single _ (nonMissingTimes_pairwise tbl X hwf)
  rw [compute_single_name tbl X Option.none .exact tolArg hX rfl]
  rw [show alignCol tbl X (unionIndex [tbl.nonMissingTimes X]) .exact
        (resolveTol tolArg Option.none) =
      reindexCol tbl X (unionIndex [tbl.nonMissingTimes X]) from rfl]
  rw [hu, reindexCol_own_times tbl X hwf]
  rw [stripInfWarn_of_no_inf _ (by
    intro v hv
    rcases List.mem_map.mp hv with ⟨p, _, hp⟩
    rw [← hp]
    rfl)]

/-- Concrete table for the C9 witness: one column `X` with a gap. -/
def tblC9 : Table := ⟨[0, 1, 2], [("X", [some 5, Option.none, some 7])]⟩

theorem c9_single_alias_roundtrip_witness :
    compute tblC9 (.name "X") Option.none .exact .auto =
      .ok ⟨[0, 2], [FVal.num 5, FVal.num 7], ⟨[], some 35⟩⟩ := by
  rw [c9_single_alias_roundtrip tblC9 "X" .auto
    (by constructor
        · rfl
        · intro p hp
          simp [tblC9] at hp
          rw [hp]
          rfl)
    rfl]
  norm_num [tblC9, Table.nonMissingTimes, Table.nonMissingPairs,
    Table.rowsOf, Table.colCells, List.lookup, resolveTol,
    List.filterMap_cons, List.filterMap_nil, Option.map_some', Option.map_none']

/-- **C3**: for `+` and `−` under EXACT alignment, at every timestamp of
the target axis a missing operand is treated as zero before combining: a
target timestamp where only `A` is present yields `A(t)` (resp. `A(t)` for
`−`), one where only `B` is present yields `B(t)` (resp. `−B(t)`), and one
where both are present yields `A(t) + B(t)` (resp. `A(t) − B(t)`). -/
theorem c3_additive_zero_fill (tbl : Table) (A B : String) (tolArg : TolArg)
    (hAB : A ≠ B) (hA : tbl.hasCol A = true) (hB : tbl.hasCol B = true)
    (hfreq : enforceUniform tbl [A, B] = .ok ()) :
    (resultSeries (compute tbl (.binop .add (.name A) (.name B))
        Option.none .exact tolArg) =
      .ok (binopTarget tbl A B, (binopTarget tbl A B).map (fun t =>
        match tbl.cellAt A t, tbl.cellAt B t with
        | some a, some b => FVal.num (a + b)
        | some a, Option.none => FVal.num a
        | Option.none, some b => FVal.num b
        | Option.none, Option.none => FVal.nan))) ∧
    (resultSeries (compute tbl (.binop .sub (.name A) (.name B))
        Option.none .exact tolArg) =
      .ok (binopTarget tbl A B, (binopTarget tbl A B).map (fun t =>
        match tbl.cellAt A t, tbl.cellAt B t with
        | some a, some b => FVal.num (a - b)
        | some a, Option.none => FVal.num a
        | Option.none, some b => FVal.num (-b)
        | Option.none, Option.none => FVal.nan))) := by
  constructor
  · rw [compute_binop_names tbl .add FVal.addFill A B Option.none .exact
      tolArg hAB rfl rfl hA hB hfreq rfl]
    rw [exact_binopVals_map]
    rw [stripInfWarn_of_no_inf _ (by
      intro v hv
      rcases List.mem_map.mp hv with ⟨t, _, ht⟩
      rw [← ht]
      exact addFill_ofCell_isInf_false _ _)]
    unfold resultSeries
    simp only [Except.map]
    exact congrArg (fun v => Except.ok (binopTarget tbl A B, v))
      (List.map_congr_left fun t _ => addFill_ofCell _ _)
  · rw [compute_binop_names tbl .sub FVal.subFill A B Option.none .exact
      tolArg hAB rfl rfl hA hB hfreq rfl]
    rw [exact_binopVals_map]
    rw [stripInfWarn_of_no_inf _ (by
      intro v hv
      rcases List.mem_map.mp hv with ⟨t, _, ht⟩
      rw [← ht]
      exact subFill_ofCell_isInf_false _ _)]
    unfold resultSeries
    simp only [Except.map]
    exact congrArg (fun v => Except.ok (binopTarget tbl A B, v))
      (List.map_congr_left fun t _ => subFill_ofCell _ _)

/-- Concrete table for the C3 witness: `A` present on days 1–5, `B` on
days 3–8, as in the spec's example. -/
def tblC3 : Table :=
  ⟨[1, 2, 3, 4, 5, 6, 7, 8],
   [("A", [some 10, some 20, some 30, some 40, some 50,
           Option.none, Option.none, Option.none]),
    ("B", [Option.none, Option.none, some 1, some 2, some 3,
           some 4, some 5, some 6])]⟩

theorem c3_additive_zero_fill_witness :
    (resultSeries (compute tblC3 (.binop .add (.name "A") (.name "B"))
        Option.none .exact .auto) =
      .ok (binopTarget tblC3 "A" "B", (binopTarget tblC3 "A" "B").map (fun t =>
        match tblC3.cellAt "A" t, tblC3.cellAt "B" t with
        | some a, some b => FVal.num (a + b)
        | some a, Option.none => FVal.num a
        | Option.none, some b => FVal.num b
        | Option.none, Option.none => FVal.nan))) ∧
    (resultSeries (compute tblC3 (.binop .sub (.name "A") (.name "B"))
        Option.none .exact .auto) =
      .ok (binopTarget tblC3 "A" "B", (binopTarget tblC3 "A" "B").map (fun t =>
        match tblC3.cellAt "A" t, tblC3.cellAt "B" t with
        | some a, some b => FVal.num (a - b)
        | some a, Option.none => FVal.num a
        | Option.none, some b => FVal.num (-b)
        | Option.none, Option.none => FVal.nan))) :=
  c3_additive_zero_fill tblC3 "A" "B" .auto (by decide) rfl rfl (by
    have hA : tblC3.nonMissingTimes "A" = [1, 2, 3, 4, 5] := by
      simp [tblC3, Table.nonMissingTimes, Table.nonMissingPairs,
        Table.rowsOf, Table.colCells, List.lookup, List.filterMap_cons,
        Option.map_some', Option.map_none']
    have hB : tblC3.nonMissingTimes "B" = [3, 4, 5, 6, 7, 8] := by
      simp [tblC3, Table.nonMissingTimes, Table.nonMissingPairs,
        Table.rowsOf, Table.colCells, List.lookup, List.filterMap_cons,
        Option.map_some', Option.map_none']
    norm_num [enforceUniform, classifiedLabels, hA, hB, inferLabel,
      medianDays, medianOf, gapsOf, classify, bandList, List.find?,
      List.filterMap_cons, List.filterMap_nil,
      List.insertionSort, List.orderedInsert, List.dedup_cons_of_mem,
      List.dedup_cons_of_not_mem, pure, Except.pure])

/-- **C4** (amended): under EXACT alignment, for `*` and `/` a missing
operand at a target timestamp makes the result missing there, and where
both operands are present the result is the product (resp. the quotient
for a nonzero divisor, missing for a zero divisor); for `**`, a missing
operand makes the result missing **except** for the IEEE `pow` identities:
a present exponent `0` yields `1` and a present base `1` yields `1` even
when the other operand is missing (and where both are present the result
is the IEEE power, with a final sweep replacing `±∞` by missing). -/
theorem c4_multiplicative_missing_amended (tbl : Table) (A B : String)
    (tolArg : TolArg) (hAB : A ≠ B) (hA : tbl.hasCol A = true)
    (hB : tbl.hasCol B = true)
    (hfreq : enforceUniform tbl [A, B] = .ok ()) :
    (resultSeries (compute tbl (.binop .mult (.name A) (.name B))
        Option.none .exact tolArg) =
      .ok (binopTarget tbl A B, (binopTarget tbl A B).map (fun t =>
        match tbl.cellAt A t, tbl.cellAt B t with
        | some a, some b => FVal.num (a * b)
        | _, _ => FVal.nan))) ∧
    (resultSeries (compute tbl (.binop .div (.name A) (.name B))
        Option.none .exact tolArg) =
      .ok (binopTarget tbl A B, (binopTarget tbl A B).map (fun t =>
        match tbl.cellAt A t, tbl.cellAt B t with
        | some a, some b => if b = 0 then FVal.nan else FVal.num (a / b)
        | _, _ => FVal.nan))) ∧
    (resultSeries (compute tbl (.binop .pow (.name A) (.name B))
        Option.none .exact tolArg) =
      .ok (binopTarget tbl A B, (binopTarget tbl A B).map (fun t =>
        match tbl.cellAt A t, tbl.cellAt B t with
        | some a, some b => FVal.stripInf (FVal.fpow (.num a) (.num b))
        | Option.none, some b => if b = 0 then FVal.num 1 else FVal.nan
        | some a, Option.none => if a = 1 then FVal.num 1 else FVal.nan
        | Option.none, Option.none => FVal.nan))) := by
  refine ⟨?_, ?_, ?_⟩
  · rw [compute_binop_names tbl .mult FVal.fmul A B Option.none .exact
      tolArg hAB rfl rfl hA hB hfreq rfl]
    rw [exact_binopVals_map]
    rw [stripInfWarn_of_no_inf _ (by
      intro v hv
      rcases List.mem_map.mp hv with ⟨t, _, ht⟩
      rw [← ht]
      exact fmul_ofCell_isInf_false _ _)]
    unfold resultSeries
    simp only [Except.map]
    exact congrArg (fun v => Except.ok (binopTarget tbl A B, v))
      (List.map_congr_left fun t _ => fmul_ofCell _ _)
  · rw [compute_binop_names tbl .div FVal.divRep A B Option.none .exact
      tolArg hAB rfl rfl hA hB hfreq rfl]
    rw [exact_binopVals_map]
    rw [stripInfWarn_of_no_inf _ (by
      intro v hv
      rcases List.mem_map.mp hv with ⟨t, _, ht⟩
      rw [← ht]
      exact divRep_isInf_false _ _)]
    unfold resultSeries
    simp only [Except.map]
    exact congrArg (fun v => Except.ok (binopTarget tbl A B, v))
      (List.map_congr_left fun t _ => divRep_ofCell _ _)
  · rw [compute_binop_names tbl .pow FVal.fpow A B Option.none .exact
      tolArg hAB rfl rfl hA hB hfreq rfl]
    unfold resultSeries
    simp only [Except.map]
    rw [stripInfWarn_fst, exact_binopVals_map, List.map_map]
    exact congrArg (fun v => Except.ok (binopTarget tbl A B, v))
      (List.map_congr_left fun t _ => fpow_ofCell_strip _ _)

/-- Concrete table for C4: `A` is missing at day 1, where `B` is exactly
`0`; `A ** B` there is `nan ** 0 = 1` in IEEE/NumPy arithmetic. -/
def tblC4 : Table :=
  ⟨[0, 1], [("A", [some 2, Option.none]), ("B", [some 1, some 0])]⟩

theorem tblC4_timesA : tblC4.nonMissingTimes "A" = [0] := by
  simp [tblC4, Table.nonMissingTimes, Table.nonMissingPairs, Table.rowsOf,
    Table.colCells, List.lookup, List.filterMap_cons, List.filterMap_nil,
    Option.map_some', Option.map_none']

theorem tblC4_timesB : tblC4.nonMissingTimes "B" = [0, 1] := by
  simp [tblC4, Table.nonMissingTimes, Table.nonMissingPairs, Table.rowsOf,
    Table.colCells, List.lookup, List.filterMap_cons, List.filterMap_nil,
    Option.map_some', Option.map_none']

theorem tblC4_freq : enforceUniform tblC4 ["A", "B"] = .ok () := by
  norm_num [enforceUniform, classifiedLabels, tblC4_timesA, tblC4_timesB,
    inferLabel, medianDays, medianOf, gapsOf, classify, bandList,
    List.find?, List.filterMap_cons, List.filterMap_nil,
    List.insertionSort, List.orderedInsert, List.dedup_cons_of_mem,
    List.dedup_cons_of_not_mem, pure, Except.pure]

/-- **C4** counterexample: at day 1 of `tblC4` the operand `A` is missing,
yet the final output of `A ** B` is the present value `1` (because
`B(1) = 0` and IEEE `pow(NaN, 0) = 1`), refuting "at every timestamp where
either operand is missing the result is missing" for `**`. -/
theorem c4_counterexample :
    tblC4.cellAt "A" 1 = Option.none ∧
    resultSeries (compute tblC4 (.binop .pow (.name "A") (.name "B"))
        Option.none .exact .auto) = .ok ([0, 1], [FVal.num 2, FVal.num 1]) := by
  constructor
  · simp [tblC4, Table.cellAt, Table.findCell, Table.rowsOf, Table.colCells,
      List.lookup, List.find?]
  · rw [compute_binop_names tblC4 .pow FVal.fpow "A" "B" Option.none .exact
      .auto (by decide) rfl rfl rfl rfl tblC4_freq rfl]
    unfold resultSeries
    simp only [Except.map]
    have htgt : binopTarget tblC4 "A" "B" = [0, 1] := by
      norm_num [binopTarget, tblC4_timesA, tblC4_timesB, unionIndex,
        List.dedup_cons_of_mem, List.dedup_cons_of_not_mem,
        List.insertionSort, List.orderedInsert]
    have hvals : binopVals tblC4 "A" "B" FVal.fpow Option.none .exact .auto =
        [FVal.num 2, FVal.num 1] := by
      rw [exact_binopVals_map, htgt]
      have hA0 : tblC4.cellAt "A" 0 = some 2 := by
        simp [tblC4, Table.cellAt, Table.findCell, Table.rowsOf,
          Table.colCells, List.lookup, List.find?]
      have hA1 : tblC4.cellAt "A" 1 = Option.none := by
        simp [tblC4, Table.cellAt, Table.findCell, Table.rowsOf,
          Table.colCells, List.lookup, List.find?]
      have hB0 : tblC4.cellAt "B" 0 = some 1 := by
        simp [tblC4, Table.cellAt, Table.findCell, Table.rowsOf,
          Table.colCells, List.lookup, List.find?]
      have hB1 : tblC4.cellAt "B" 1 = some 0 := by
        simp [tblC4, Table.cellAt, Table.findCell, Table.rowsOf,
          Table.colCells, List.lookup, List.find?]
      rw [List.map_cons, List.map_cons, List.map_nil, hA0, hA1, hB0, hB1]
      norm_num [ofCell, FVal.fpow, FVal.stripInf]
    rw [hvals, htgt]
    rw [stripInfWarn_of_no_inf _ (by
      intro v hv
      simp at hv
      rcases hv with h | h <;> simp [h, FVal.isInf])]

theorem c4_multiplicative_missing_amended_witness :
    (resultSeries (compute tblC4 (.binop .mult (.name "A") (.name "B"))
        Option.none .exact .auto) =
      .ok (binopTarget tblC4 "A" "B", (binopTarget tblC4 "A" "B").map (fun t =>
        match tblC4.cellAt "A" t, tblC4.cellAt "B" t with
        | some a, some b => FVal.num (a * b)
        | _, _ => FVal.nan))) ∧
    (resultSeries (compute tblC4 (.binop .div (.name "A") (.name "B"))
        Option.none .exact .auto) =
      .ok (binopTarget tblC4 "A" "B", (binopTarget tblC4 "A" "B").map (fun t =>
        match tblC4.cellAt "A" t, tblC4.cellAt "B" t with
        | some a, some b => if b = 0 then FVal.nan else FVal.num (a / b)
        | _, _ => FVal.nan))) ∧
    (resultSeries (compute tblC4 (.binop .pow (.name "A") (.name "B"))
        Option.none .exact .auto) =
      .ok (binopTarget tblC4 "A" "B", (binopTarget tblC4 "A" "B").map (fun t =>
        match tblC4.cellAt "A" t, tblC4.cellAt "B" t with
        | some a, some b => FVal.stripInf (FVal.fpow (.num a) (.num b))
        | Option.none, some b => if b = 0 then FVal.num 1 else FVal.nan
        | some a, Option.none => if a = 1 then FVal.num 1 else FVal.nan
        | Option.none, Option.none => FVal.nan))) :=
  c4_multiplicative_missing_amended tblC4 "A" "B" .auto (by decide) rfl rfl
    tblC4_freq

theorem zipWith_forall {α β γ : Type} (P : γ → Prop) (f : α → β → γ)
    (h : ∀ a b, P (f a b)) :
    ∀ (as : List α) (bs : List β), ∀ v ∈ List.zipWith f as bs, P v
  | [], _, v, hv => by simp at hv
  | _ :: _, [], v, hv => by simp at hv
  | a :: as, b :: bs, v, hv => by
      rw [List.zipWith_cons_cons] at hv
      cases hv with
      | head => exact h a b
      | tail _ hv => exact zipWith_forall P f h as bs v hv

theorem alignCol_length (tbl : Table) (n : String) (target : List ℚ)
    (align : Align) (tol : Option ℚ) :
    (alignCol tbl n target align tol).length = target.length := by
  cases align <;> simp [alignCol, reindexCol, asofAlign]

/-- **C1** (amended): division by exactly zero yields a missing value at
that timestamp in the final output and the caller never receives an
infinity — but the ±∞→NaN conversion happens inside the division operator
itself (mid-expression, in `_series_div`), so for a division formula the
evaluated series never contains an infinity, the final infinity sweep
never fires, and the metadata's warning list stays **empty** for division
by zero. -/
theorem c1_divzero_neutralized_amended (tbl : Table) (A B : String)
    (expected : Option Periodicity) (align : Align) (tolArg : TolArg)
    (hAB : A ≠ B) (hA : tbl.hasCol A = true) (hB : tbl.hasCol B = true)
    (hfreq : enforceUniform tbl [A, B] = .ok ())
    (hval : validateExpected tbl [A, B] expected = .ok ()) :
    compute tbl (.binop .div (.name A) (.name B)) expected align tolArg =
      .ok ⟨binopTarget tbl A B,
           binopVals tbl A B FVal.divRep expected align tolArg,
           ⟨[], resolveTol tolArg expected⟩⟩ ∧
    (∀ i : Nat,
      (alignCol tbl B (binopTarget tbl A B) align
          (resolveTol tolArg expected))[i]? = some (FVal.num 0) →
      (binopVals tbl A B FVal.divRep expected align tolArg)[i]? =
        some FVal.nan) ∧
    (∀ v ∈ binopVals tbl A B FVal.divRep expected align tolArg,
      v.isInf = false) := by
  have hnoinf : ∀ v ∈ binopVals tbl A B FVal.divRep expected align tolArg,
      v.isInf = false :=
    zipWith_forall _ _ (fun a b => divRep_isInf_false a b) _ _
  refine ⟨?_, ?_, hnoinf⟩
  · rw [compute_binop_names tbl .div FVal.divRep A B expected align
      tolArg hAB rfl rfl hA hB hfreq hval]
    rw [stripInfWarn_of_no_inf _ hnoinf]
  · intro i hB0
    have hiB : i < (alignCol tbl B (binopTarget tbl A B) align
        (resolveTol tolArg expected)).length :=
      (List.getElem?_eq_some.mp hB0).1
    have hiA : i < (alignCol tbl A (binopTarget tbl A B) align
        (resolveTol tolArg expected)).length := by
      rw [alignCol_length] at hiB ⊢
      exact hiB
    have hAi := List.getElem?_eq_getElem hiA
    unfold binopVals
    rw [List.getElem?_zipWith, hAi, hB0]
    simp [divRep_num_zero]

/-- Concrete table for C1: a single day where `B` is exactly zero. -/
def tblC1 : Table := ⟨[0], [("A", [some 1]), ("B", [some 0])]⟩

theorem tblC1_timesA : tblC1.nonMissingTimes "A" = [0] := by
  simp [tblC1, Table.nonMissingTimes, Table.nonMissingPairs, Table.rowsOf,
    Table.colCells, List.lookup, List.filterMap_cons, List.filterMap_nil,
    Option.map_some', Option.map_none']

theorem tblC1_timesB : tblC1.nonMissingTimes "B" = [0] := by
  simp [tblC1, Table.nonMissingTimes, Table.nonMissingPairs, Table.rowsOf,
    Table.colCells, List.lookup, List.filterMap_cons, List.filterMap_nil,
    Option.map_some', Option.map_none']

theorem tblC1_freq : enforceUniform tblC1 ["A", "B"] = .ok () := by
  norm_num [enforceUniform, classifiedLabels, inferLabel, medianDays,
    tblC1_timesA, tblC1_timesB, List.filterMap_cons, List.filterMap_nil,
    pure, Except.pure]

/-- **C1** counterexample: dividing by an exact zero (`B(0) = 0`) makes
the output missing at that timestamp, yet the metadata's warning list is
**empty** — the claim's "whenever such a division by zero occurred the
metadata's warning list is non-empty" is false on the code, because
`_series_div` already converted the infinity before the final sweep. -/
theorem c1_counterexample :
    tblC1.cellAt "B" 0 = some 0 ∧
    compute tblC1 (.binop .div (.name "A") (.name "B")) Option.none .exact
        .auto = .ok ⟨[0], [FVal.nan], ⟨[], some 35⟩⟩ := by
  constructor
  · simp [tblC1, Table.cellAt, Table.findCell, Table.rowsOf, Table.colCells,
      List.lookup, List.find?]
  · rw [compute_binop_names tblC1 .div FVal.divRep "A" "B" Option.none
      .exact .auto (by decide) rfl rfl rfl rfl tblC1_freq rfl]
    have htgt : binopTarget tblC1 "A" "B" = [0] := by
      norm_num [binopTarget, tblC1_timesA, tblC1_timesB, unionIndex,
        List.dedup_cons_of_mem, List.dedup_cons_of_not_mem,
        List.insertionSort, List.orderedInsert]
    have hvals : binopVals tblC1 "A" "B" FVal.divRep Option.none .exact
        .auto = [FVal.nan] := by
      rw [exact_binopVals_map, htgt]
      have hA0 : tblC1.cellAt "A" 0 = some 1 := by
        simp [tblC1, Table.cellAt, Table.findCell, Table.rowsOf,
          Table.colCells, List.lookup, List.find?]
      have hB0 : tblC1.cellAt "B" 0 = some 0 := by
        simp [tblC1, Table.cellAt, Table.findCell, Table.rowsOf,
          Table.colCells, List.lookup, List.find?]
      rw [List.map_cons, List.map_nil, hA0, hB0]
      norm_num [ofCell, FVal.divRep, FVal.fdivRaw, FVal.stripInf]
    rw [hvals, htgt]
    rw [stripInfWarn_of_no_inf _ (by
      intro v hv
      simp at hv
      simp [hv, FVal.isInf])]
    rfl

theorem c1_divzero_neutralized_amended_witness :
    (compute tblC1 (.binop .div (.name "A") (.name "B")) Option.none .exact
        .auto =
      .ok ⟨binopTarget tblC1 "A" "B",
           binopVals tblC1 "A" "B" FVal.divRep Option.none .exact .auto,
           ⟨[], resolveTol .auto Option.none⟩⟩ ∧
    (∀ i : Nat,
      (alignCol tblC1 "B" (binopTarget tblC1 "A" "B") .exact
          (resolveTol .auto Option.none))[i]? = some (FVal.num 0) →
      (binopVals tblC1 "A" "B" FVal.divRep Option.none .exact .auto)[i]? =
        some FVal.nan) ∧
    (∀ v ∈ binopVals tblC1 "A" "B" FVal.divRep Option.none .exact .auto,
      v.isInf = false)) :=
  c1_divzero_neutralized_amended tblC1 "A" "B" Option.none .exact .auto
    (by decide) rfl rfl tblC1_freq rfl

/-- **C5**: whenever the referenced aliases classify to more than one
distinct (non-unclassified) periodicity, the call fails with
`MixedFrequencyError` — producing no output, for every alignment policy,
tolerance and expected periodicity; and whenever at most one distinct
classified periodicity appears (so unclassified aliases alone never
trigger it), the call (with no expected periodicity) succeeds. -/
theorem c5_mixed_frequency_rejection :
    (∀ (tbl : Table) (f : PyExpr) (expected : Option Periodicity)
        (align : Align) (tolArg : TolArg) (ns : List String),
      pyCheck f = .ok ns → ns.dedup ≠ [] →
      (∀ n ∈ ns.dedup, tbl.hasCol n = true) →
      1 < (classifiedLabels tbl ns.dedup).dedup.length →
      compute tbl f expected align tolArg = .error .mixedFrequency) ∧
    (∀ (tbl : Table) (f : PyExpr) (align : Align) (tolArg : TolArg)
        (ns : List String),
      pyCheck f = .ok ns → ns.dedup ≠ [] →
      (∀ n ∈ ns.dedup, tbl.hasCol n = true) →
      (classifiedLabels tbl ns.dedup).dedup.length ≤ 1 →
      ∃ out, compute tbl f Option.none align tolArg = .ok out) := by
  constructor
  · intro tbl f expected align tolArg ns hpy hne hcols hmix
    unfold compute
    rw [hpy]
    have h1 : ns.dedup.isEmpty = false := by
      cases h : ns.dedup.isEmpty
      · rfl
      · exact absurd (List.isEmpty_iff.mp h) hne
    have hmiss : List.filter (fun n => !tbl.hasCol n) ns.dedup = [] :=
      List.filter_eq_nil_iff.mpr (fun a ha => by simp [hcols a ha])
    have henf : enforceUniform tbl ns.dedup = .error .mixedFrequency := by
      simp [enforceUniform, hmix]
    simp [h1, hmiss, henf]
  · intro tbl f align tolArg ns hpy hne hcols hle
    unfold compute
    rw [hpy]
    have h1 : ns.dedup.isEmpty = false := by
      cases h : ns.dedup.isEmpty
      · rfl
      · exact absurd (List.isEmpty_iff.mp h) hne
    have hmiss : List.filter (fun n => !tbl.hasCol n) ns.dedup = [] :=
      List.filter_eq_nil_iff.mpr (fun a ha => by simp [hcols a ha])
    have henf : enforceUniform tbl ns.dedup = .ok () :=
      enforceUniform_not_error tbl ns.dedup (not_lt.mpr hle)
    have henv : ∀ n ∈ ns,
        ((ns.dedup.map (fun m => (m, alignCol tbl m
            (unionIndex (ns.dedup.map tbl.nonMissingTimes)) align
            (resolveTol tolArg Option.none)))).lookup n).isSome = true := by
      intro n hn
      rw [lookup_map_self _ _ _ (List.mem_dedup.mpr hn)]
      rfl
    obtain ⟨vs, hvs⟩ := evalPy_ok_of_check f ns hpy _
      (unionIndex (ns.dedup.map tbl.nonMissingTimes)).length henv
    refine ⟨⟨unionIndex (ns.dedup.map tbl.nonMissingTimes),
      (stripInfWarn vs).1,
      ⟨(stripInfWarn vs).2, resolveTol tolArg Option.none⟩⟩, ?_⟩
    simp [h1, hmiss, henf, hvs, validateExpected, pure, Except.pure]

/-- Concrete mixed-frequency table for the C5 witness: `A` is daily
(median gap 1), `B` is quarterly (median gap 90). -/
def tblC5 : Table :=
  ⟨[0, 1, 2, 3, 90, 180],
   [("A", [some 1, some 2, some 3, some 4, Option.none, Option.none]),
    ("B", [some 1, Option.none, Option.none, Option.none, some 2, some 3])]⟩

theorem tblC5_timesA : tblC5.nonMissingTimes "A" = [0, 1, 2, 3] := by
  simp [tblC5, Table.nonMissingTimes, Table.nonMissingPairs, Table.rowsOf,
    Table.colCells, List.lookup, List.filterMap_cons, List.filterMap_nil,
    Option.map_some', Option.map_none']

theorem tblC5_timesB : tblC5.nonMissingTimes "B" = [0, 90, 180] := by
  simp [tblC5, Table.nonMissingTimes, Table.nonMissingPairs, Table.rowsOf,
    Table.colCells, List.lookup, List.filterMap_cons, List.filterMap_nil,
    Option.map_some', Option.map_none']

theorem c5_mixed_frequency_rejection_witness :
    (compute tblC5 (.binop .add (.name "A") (.name "B")) Option.none .asof
        .auto = .error .mixedFrequency) ∧
    (∃ out, compute tblC1 (.binop .div (.name "A") (.name "B")) Option.none
        .exact .auto = .ok out) := by
  constructor
  · refine c5_mixed_frequency_rejection.1 tblC5
      (.binop .add (.name "A") (.name "B")) Option.none .asof .auto
      ["A", "B"] rfl (by decide) ?_ ?_
    · intro n hn
      rw [dedup_pair (by decide)] at hn
      simp at hn
      rcases hn with h | h <;> subst h <;> rfl
    · rw [dedup_pair (by decide)]
      have hlabels : classifiedLabels tblC5 ["A", "B"] =
          [Periodicity.daily, Periodicity.quarterly] := by
        norm_num [classifiedLabels, inferLabel, medianDays, tblC5_timesA,
          tblC5_timesB, medianOf, gapsOf, classify, bandList, List.find?,
          List.filterMap_cons, List.filterMap_nil, List.insertionSort,
          List.orderedInsert]
      rw [hlabels]
      decide
  · refine c5_mixed_frequency_rejection.2 tblC1
      (.binop .div (.name "A") (.name "B")) .exact .auto
      ["A", "B"] rfl (by decide) ?_ ?_
    · intro n hn
      rw [dedup_pair (by decide)] at hn
      simp at hn
      rcases hn with h | h <;> subst h <;> rfl
    · rw [dedup_pair (by decide)]
      norm_num [classifiedLabels, inferLabel, medianDays, tblC1_timesA,
        tblC1_timesB, List.filterMap_cons, List.filterMap_nil]

/-- **C8**: when at least one referenced alias is absent from the table's
columns, the call fails with `UnknownAliasError` whose payload is the
sorted list of **all** missing aliases: the payload is sorted, and an
alias belongs to it exactly when it is referenced and absent. -/
theorem c8_unknown_alias_listing (tbl : Table) (f : PyExpr)
    (expected : Option Periodicity) (align : Align) (tolArg : TolArg)
    (ns : List String) (hpy : pyCheck f = .ok ns) (hne : ns.dedup ≠ [])
    (hmiss : ns.dedup.filter (fun n => !(tbl.hasCol n)) ≠ []) :
    compute tbl f expected align tolArg =
      .error (.unknownAliases (List.insertionSort (· ≤ ·)
        (ns.dedup.filter (fun n => !(tbl.hasCol n))))) ∧
    List.Sorted (· ≤ ·) (List.insertionSort (· ≤ ·)
      (ns.dedup.filter (fun n => !(tbl.hasCol n)))) ∧
    (∀ a, a ∈ List.insertionSort (· ≤ ·)
        (ns.dedup.filter (fun n => !(tbl.hasCol n))) ↔
      (a ∈ ns.dedup ∧ tbl.hasCol a = false)) := by
  refine ⟨?_, List.sorted_insertionSort _ _, ?_⟩
  · unfold compute
    rw [hpy]
    have h1 : ns.dedup.isEmpty = false := by
      cases h : ns.dedup.isEmpty
      · rfl
      · exact absurd (List.isEmpty_iff.mp h) hne
    have h2 : (ns.dedup.filter (fun n => !(tbl.hasCol n))).isEmpty = false := by
      cases h : (ns.dedup.filter (fun n => !(tbl.hasCol n))).isEmpty
      · rfl
      · exact absurd (List.isEmpty_iff.mp h) hmiss
    simp [h1, h2]
  · intro a
    rw [(List.perm_insertionSort _ _).mem_iff, List.mem_filter]
    simp [Bool.not_eq_true']

/-- Table and formula for the C8 witness: `{"Z", "Y"}` referenced, only
`Y` present. -/
def tblC8 : Table := ⟨[0], [("Y", [some 1])]⟩

theorem c8_unknown_alias_listing_witness :
    (compute tblC8 (.binop .add (.name "Z") (.name "Y")) Option.none .exact
        .auto = .error (.unknownAliases (List.insertionSort (· ≤ ·)
          ((["Z", "Y"] : List String).dedup.filter
            (fun n => !(tblC8.hasCol n))))) ∧
    List.Sorted (· ≤ ·) (List.insertionSort (· ≤ ·)
      ((["Z", "Y"] : List String).dedup.filter
        (fun n => !(tblC8.hasCol n)))) ∧
    (∀ a, a ∈ List.insertionSort (· ≤ ·)
        ((["Z", "Y"] : List String).dedup.filter
          (fun n => !(tblC8.hasCol n))) ↔
      (a ∈ (["Z", "Y"] : List String).dedup ∧ tblC8.hasCol a = false))) ∧
    "Z" ∈ List.insertionSort (· ≤ ·)
      ((["Z", "Y"] : List String).dedup.filter (fun n => !(tblC8.hasCol n))) := by
  have h := c8_unknown_alias_listing tblC8
    (.binop .add (.name "Z") (.name "Y")) Option.none .exact .auto
    ["Z", "Y"] rfl (by decide) (by decide)
  refine ⟨h, ?_⟩
  exact (h.2.2 "Z").mpr ⟨by decide, rfl⟩

/-- **C10**: under EXACT alignment the output series (timestamps and
values) does not depend on the cross-align tolerance argument: two calls
differing only in the tolerance — `"auto"`, any explicit duration, or
unbounded — return identical series (only the metadata records the
resolved tolerance). -/
theorem c10_exact_tolerance_independence (tbl : Table) (f : PyExpr)
    (expected : Option Periodicity) (t1 t2 : TolArg) :
    resultSeries (compute tbl f expected .exact t1) =
      resultSeries (compute tbl f expected .exact t2) := by
  unfold compute
  cases hpy : pyCheck f with
  | error e => rfl
  | ok ns =>
      cases h1 : ns.dedup.isEmpty
      · cases h2 : (List.filter (fun n => !tbl.hasCol n) ns.dedup).isEmpty
        · simp [h1, h2]
        · simp only [h1, h2, Bool.false_eq_true, if_false, if_true]
          cases henf : enforceUniform tbl ns.dedup with
          | error e => simp [henf]
          | ok u =>
              cases hval : validateExpected tbl ns.dedup expected with
              | error e => simp [henf, hval]
              | ok u' =>
                  simp only [henf, hval, alignCol]
                  cases hev : evalPy (List.map (fun n =>
                      (n, reindexCol tbl n
                        (unionIndex (List.map tbl.nonMissingTimes ns.dedup))))
                      ns.dedup)
                      (unionIndex (List.map tbl.nonMissingTimes
                        ns.dedup)).length f with
                  | error e => simp [hev]
                  | ok vals => simp [hev, resultSeries, Except.map]
      · simp [h1]

end CustomIndex
